import Mathlib

/-!
# Verification of the cybergis-compute-core Supervisor

A shallow embedding of the core of the `cybergis-compute-core` job
supervisor, together with proofs about its behaviour.  The embedding
follows the TypeScript source:

* `src/src/utils/Supervisor.ts` — the `Supervisor` class (per-cluster
  admission queue, job-pool counters, running/cancel sets, connection
  pool bookkeeping, `cancelJob`) and the folder-uploader hierarchy
  (`BaseFolderUploader.register`, `CachedFolderUploader.cachedUpload` /
  `refreshCache` / `registerCache`, `GitFolderUploader.uploadToCache`,
  `GlobusFolderUploader.upload`).
* `src/src/utils/Emitter.ts` — `Emitter.registerEvents` and
  `Emitter.registerLogs`.
* `src/src/models/Cache.ts` — the `Cache` entity and its `update()`.
* `JobUtil.timeToSeconds` and `JobUtil.compareSlurmConfig`.

Strings from the TypeScript side are modelled as `String`; JavaScript
string primitives (`split`, `parseInt`, `includes`, `substring`) are
given executable character-level definitions so every concrete claim
can be settled by kernel evaluation.

Asynchronous interleaving of the scheduler tick and the per-job worker
loops is modelled as a small-step transition system `Step`/`Reachable`:
each step is one atomic block of the event-loop between `await`
suspension points (admission of one popped job, termination handling of
one worker, one `pushJobToQueue`, one `cancelJob` call).
-/

namespace CyberGIS

/-- Pointwise update of a string-indexed map, used for the `Record`s of
the `Supervisor` class (`jobPoolCounters`, `queues`, `runningJobs`,
`cancelJobs`, `connectionPool`). -/
def updf {α : Type} (f : String → α) (k : String) (v : α) : String → α :=
  fun x => if x = k then v else f x

/-- `Array.prototype.splice(indexOf(x), 1)`: remove the first occurrence
of `x` from a list, or leave the list unchanged when `x` is absent
(`indexOf` returns `-1` and no `splice` happens). -/
def removeFirst {α : Type} [DecidableEq α] (x : α) : List α → List α
  | [] => []
  | y :: ys => if y = x then ys else y :: removeFirst x ys

/-- A job as seen by the scheduler.  `isCommunity` is the value of
`job.maintainerInstance.connector.connectorConfig.is_community_account`
(a per-cluster configuration fact carried on the job's connector). -/
structure Job where
  id : String
  hpc : String
  isCommunity : Bool
deriving DecidableEq

/-- The static configuration consumed by the `Supervisor` constructor:
the keys of `hpcConfigMap` (pairwise distinct, being keys of a record),
each cluster's `job_pool_capacity`, and `config.is_testing`. -/
structure Config where
  hpcNames : List String
  capacity : String → Nat
  isTesting : Bool
  hpcNamesNodup : hpcNames.Nodup

/-- The mutable state of the `Supervisor` instance plus the connection
pool.  `pool k` is `some n` when `connectionPool[k]` is an entry with
`counter = n`, and `none` when the key is absent.  Shell objects carry
no further observable state here. -/
structure SupState where
  counters : String → Int
  queues : String → List Job
  running : String → List Job
  cancels : String → List Job
  pool : String → Option Int

/-- Initial state: the `Supervisor` constructor zeroes every counter and
creates empty queues and running/cancel arrays for each configured HPC.
Modelled from the spec: the `ConnectionPool` module itself is not part
of the provided sources (only its callers are); per spec §4.B it holds
one ref-counted shared-account entry per cluster, so each configured
cluster starts with an idle entry of refcount `0` and no other key is
present. -/
def initState (cfg : Config) : SupState where
  counters := fun _ => 0
  queues := fun _ => []
  running := fun _ => []
  cancels := fun _ => []
  pool := fun k => if k ∈ cfg.hpcNames then some 0 else none

/-- `pushJobToQueue(job)`: `await this.queues[job.hpc].push(job)`
(a Redis `RPUSH`, i.e. append at the tail).  The subsequent
`JOB_QUEUED` event does not touch scheduler state. -/
def pushJobF (s : SupState) (j : Job) : SupState :=
  { s with queues := updf s.queues j.hpc (s.queues j.hpc ++ [j]) }

/-- One successful iteration of the admission `while` loop of
`createMaintainerMaster` for cluster `c`: the counter guard and
non-empty-queue guard have been checked (they are side conditions of
`Reachable.admitJob`), the popped job hydrates and its maintainer constructs.
The code then pushes the job onto `runningJobs[job.hpc]`, increments
`jobPoolCounters[hpcName]`, and updates the connection pool: a
community-account job increments `connectionPool[job.hpc].counter`,
a private-account job installs `connectionPool[job.id]` with
`counter: 1`. -/
def admitF (s : SupState) (c : String) : SupState :=
  match s.queues c with
  | [] => s
  | j :: rest =>
    { counters := updf s.counters c (s.counters c + 1)
      queues := updf s.queues c rest
      running := updf s.running j.hpc (s.running j.hpc ++ [j])
      cancels := s.cancels
      pool :=
        if j.isCommunity then
          updf s.pool j.hpc ((s.pool j.hpc).map (· + 1))
        else
          updf s.pool j.id (some 1) }

/-- A failed iteration of the admission loop for cluster `c`: either
`pop()` returned `null` (job id present in Redis but the entity is gone)
and the loop `continue`s, or `new maintainer(job)` threw and the
`catch` block records `JOB_INIT_ERROR` and `continue`s.  In both cases
the popped entry is consumed and no counter, running set, or pool entry
changes. -/
def admitFailF (s : SupState) (c : String) : SupState :=
  match s.queues c with
  | [] => s
  | _ :: rest => { s with queues := updf s.queues c rest }

/-- The `isEnd` branch at the bottom of `createMaintainerWorker` for job
`j`: release the pool entry (community: decrement
`connectionPool[job.hpc].counter`, disposing the shared shell when it
reaches `0`; private: dispose and `delete connectionPool[job.id]`),
emit `job_end` — whose handler decrements `jobPoolCounters[job.hpc]` —
and `splice` the job out of `runningJobs[job.hpc]` and
`cancelJobs[job.hpc]`. -/
def jobEndF (s : SupState) (j : Job) : SupState :=
  { counters := updf s.counters j.hpc (s.counters j.hpc - 1)
    queues := s.queues
    running := updf s.running j.hpc (removeFirst j (s.running j.hpc))
    cancels := updf s.cancels j.hpc (removeFirst j (s.cancels j.hpc))
    pool :=
      if j.isCommunity then
        updf s.pool j.hpc ((s.pool j.hpc).map (· - 1))
      else
        updf s.pool j.id none }

/-- The cancellation branch in the middle of `createMaintainerWorker`:
when the worker's job is found (by object identity) in
`cancelJobs[job.hpc]` and `jobOnHpc` holds, `onCancel()` runs and the
entry is spliced out of the cancel set.  Only the cancel set changes. -/
def workerCancelF (s : SupState) (j : Job) : SupState :=
  { s with cancels := updf s.cancels j.hpc (removeFirst j (s.cancels j.hpc)) }

/-- The body of the scan loop of `Supervisor.cancelJob`: fold over
`runningJobs[hpc]`, overwriting `toReturn`/`hpcToAdd` on every id
match, so a later match wins. -/
def scanStep (s : SupState) (jobId : String) (acc : Option (Job × String))
    (hpc : String) : Option (Job × String) :=
  (s.running hpc).foldl
    (fun a job => if job.id = jobId then some (job, hpc) else a) acc

/-- The search phase of `Supervisor.cancelJob(jobId)`.  The loop walks
every `hpc in hpcConfigMap`, but the body that inspects
`this.runningJobs[hpc]` sits inside `if (config.is_testing) { ... }`,
so with `is_testing` unset the scan inspects nothing. -/
def cancelScan (cfg : Config) (s : SupState) (jobId : String) :
    Option (Job × String) :=
  if cfg.isTesting then cfg.hpcNames.foldl (scanStep s jobId) none
  else none

/-- `Supervisor.cancelJob(jobId)`: if the scan found a job, push it onto
the owning cluster's `cancelJobs` and return it; otherwise log and
return `null`, leaving the state untouched. -/
def cancelJobF (cfg : Config) (s : SupState) (jobId : String) :
    Option Job × SupState :=
  match cancelScan cfg s jobId with
  | some (j, h) =>
    (some j, { s with cancels := updf s.cancels h (s.cancels h ++ [j]) })
  | none => (none, s)

/-- Occurrences, by id, of `i` among the jobs of one list. -/
def idOccurs (i : String) (l : List Job) : Nat :=
  (l.filter (fun j => j.id = i)).length

/-- Total occurrences of id `i` among all queued and running jobs of the
configured clusters. -/
def totalOcc (cfg : Config) (s : SupState) (i : String) : Nat :=
  (cfg.hpcNames.map (fun c => idOccurs i (s.queues c ++ s.running c))).sum

/-- Freshness of a submitted job's id: job ids are opaque generated
identifiers, so a job entering the system collides neither with a
cluster name nor with any currently queued or running job's id. -/
def freshId (cfg : Config) (s : SupState) (j : Job) : Prop :=
  j.id ∉ cfg.hpcNames ∧
    ∀ c ∈ cfg.hpcNames, ∀ x ∈ s.queues c ++ s.running c, x.id ≠ j.id

instance (cfg : Config) (s : SupState) (j : Job) :
    Decidable (freshId cfg s j) := by
  unfold freshId; infer_instance

/-- The interleaving semantics of the supervisor: every state reachable
from the freshly constructed `Supervisor` by any sequence of
`pushJobToQueue` calls, admission-loop iterations, worker terminations,
worker cancel handling and `cancelJob` calls. -/
inductive Reachable (cfg : Config) : SupState → Prop
  | init : Reachable cfg (initState cfg)
  | push {s : SupState} (j : Job) :
      Reachable cfg s → j.hpc ∈ cfg.hpcNames → freshId cfg s j →
      Reachable cfg (pushJobF s j)
  | admitJob {s : SupState} (c : String) :
      Reachable cfg s → c ∈ cfg.hpcNames →
      s.counters c < (cfg.capacity c : Int) → s.queues c ≠ [] →
      Reachable cfg (admitF s c)
  | admitFail {s : SupState} (c : String) :
      Reachable cfg s → c ∈ cfg.hpcNames →
      s.counters c < (cfg.capacity c : Int) → s.queues c ≠ [] →
      Reachable cfg (admitFailF s c)
  | jobEnd {s : SupState} (j : Job) :
      Reachable cfg s → j ∈ s.running j.hpc →
      Reachable cfg (jobEndF s j)
  | workerCancel {s : SupState} (j : Job) :
      Reachable cfg s → j ∈ s.running j.hpc →
      Reachable cfg (workerCancelF s j)
  | cancel {s : SupState} (jobId : String) :
      Reachable cfg s → Reachable cfg (cancelJobF cfg s jobId).2

/-- Number of community-account jobs in a list (the contribution a list
of running jobs makes to its cluster's shared connection refcount). -/
def ccount (l : List Job) : Int :=
  ((l.filter (fun j => j.isCommunity)).length : Int)

/-- The inductive invariant of the supervisor state, tying the counters,
running sets and connection pool together. -/
structure Inv (cfg : Config) (s : SupState) : Prop where
  outside : ∀ c, c ∉ cfg.hpcNames → s.queues c = [] ∧ s.running c = []
  queueHpc : ∀ c, ∀ j ∈ s.queues c, j.hpc = c
  counterEq : ∀ c, s.counters c = ((s.running c).length : Int)
  counterLe : ∀ c ∈ cfg.hpcNames, s.counters c ≤ (cfg.capacity c : Int)
  idsNotHpc : ∀ c, ∀ j ∈ s.queues c ++ s.running c, j.id ∉ cfg.hpcNames
  idUniq : ∀ i, totalOcc cfg s i ≤ 1
  poolCluster : ∀ c ∈ cfg.hpcNames, s.pool c = some (ccount (s.running c))
  poolPrivate : ∀ c, ∀ j ∈ s.running c, j.isCommunity = false →
    s.pool j.id = some 1
  poolNone : ∀ k, k ∉ cfg.hpcNames →
    (∀ c, ∀ j ∈ s.running c, j.isCommunity = false → j.id ≠ k) →
    s.pool k = none

/-! ## Cached folder staging (`CachedFolderUploader`, `GitFolderUploader`)

The persistent artefacts a cached Git stage touches, for one fixed
`(hpc, cachePath)` pair: whether the remote cache zip exists, the
persisted `Cache` row for the pair, and cumulative operation counts
(`uploads` = `connector.upload` calls, `unzips` = `connector.unzip`
calls, `folderRows` = `Folder` rows saved by `register()`).  Each
`cachedUpload` call happens on a fresh uploader object whose
`isComplete`/`isFailed` flags start `false`; the flags are threaded
through the functions below exactly as the methods read them. -/

/-- A persisted `caches` row.  `createdAt`/`updatedAt` are stored as
epoch milliseconds (the entity's `bigint` transformer). -/
structure CacheRow where
  createdAt : Int
  updatedAt : Int
deriving DecidableEq

/-- `Cache.update()` (src/src/models/Cache.ts): sets `createdAt` — and
only `createdAt` — of the in-memory entity to the current time. -/
def cacheEntityUpdate (now : Int) (r : CacheRow) : CacheRow :=
  { r with createdAt := now }

/-- Observable state of one cache path on one cluster. -/
structure CacheSt where
  zipExists : Bool
  row : Option CacheRow
  uploads : Nat
  unzips : Nat
  folderRows : Nat
deriving DecidableEq

/-- `CachedFolderUploader.getUpdateTime`: `-1` when no `Cache` row
matches `(hpc, cachePath)`, otherwise the row's `updatedAt` in
milliseconds. -/
def getUpdateTime (st : CacheSt) : Int :=
  match st.row with
  | none => -1
  | some r => r.updatedAt

/-- `CachedFolderUploader.registerCache`: only when the uploader is
complete and not failed; inserts a fresh row (whose `@BeforeInsert`
hook stamps `createdAt` and `updatedAt` with the current time) when
none exists, and otherwise calls `exists.update()` on the fetched
entity without ever saving it — so the persisted row is unchanged. -/
def registerCacheF (complete failed : Bool) (now : Int) (st : CacheSt) :
    CacheSt :=
  if complete && !failed then
    match st.row with
    | none => { st with row := some ⟨now, now⟩ }
    | some _ => st
  else st

/-- `BaseFolderUploader.register`: saves a `Folder` row iff
`isComplete && !isFailed` at call time. -/
def registerF (complete failed : Bool) (st : CacheSt) : CacheSt :=
  if complete && !failed then { st with folderRows := st.folderRows + 1 }
  else st

/-- `LocalFolderUploader.uploadToPath(cachePath)`: zip locally, one
`connector.upload` into the cache path, remove the local zip, set
`isComplete = true` (the flag is returned by the caller below). -/
def uploadToPathCacheF (st : CacheSt) : CacheSt :=
  { st with zipExists := true, uploads := st.uploads + 1 }

/-- `GitFolderUploader.uploadToCache` followed by its trailing
`this.register()`: compare the cache row's time against the repo's
last-commit time (milliseconds) and upload + `registerCache` only when
the row is missing (`-1`) or strictly older; `register()` then runs
with whatever flags resulted (`isComplete` is `true` only if the
upload ran). -/
def uploadToCacheGitF (lastCommitMs now : Int) (st : CacheSt) : CacheSt :=
  if getUpdateTime st < lastCommitMs then
    registerF true false (registerCacheF true false now (uploadToPathCacheF st))
  else
    registerF false false st

/-- `CachedFolderUploader.clearCache`: remove the remote zip if it
exists, otherwise do nothing. -/
def clearCacheF (st : CacheSt) : CacheSt :=
  if st.zipExists then { st with zipExists := false } else st

/-- `CachedFolderUploader.refreshCache` for a Git source. -/
def refreshCacheF (lastCommitMs now : Int) (st : CacheSt) : CacheSt :=
  uploadToCacheGitF lastCommitMs now (clearCacheF st)

/-- `CachedFolderUploader.pullFromCache`: `unzip(cachePath, hpcPath)`;
unzipping a missing remote file fails, which surfaces as a staging
error (`none`). -/
def pullFromCacheF (st : CacheSt) : Option CacheSt :=
  if st.zipExists then some { st with unzips := st.unzips + 1 } else none

/-- `CachedFolderUploader.cachedUpload` for a Git source
(the `cachedStage` entry point `FolderUploaderHelper.cachedUploadGit`
constructs the uploader, `init`s the cache directory and calls this):
refresh the cache only when the remote zip is absent, then unzip the
cached zip into the fresh per-job workspace. -/
def cachedUploadGitF (lastCommitMs now : Int) (st : CacheSt) : Option CacheSt :=
  pullFromCacheF (if !st.zipExists then refreshCacheF lastCommitMs now st else st)

/-- `registerCache` calls repeated over a sequence of
`(isComplete, isFailed, now)` arguments. -/
def registerCacheSeq (calls : List (Bool × Bool × Int)) (st : CacheSt) : CacheSt :=
  calls.foldl (fun acc c => registerCacheF c.1 c.2.1 c.2.2 acc) st

/-! ## Event and log emission (`Emitter`) -/

/-- The `Job` entity fields `registerEvents` can touch, mirrored in the
database by the `UPDATE` queries it issues.  Timestamps are epoch
milliseconds. -/
structure EmJob where
  id : String
  initializedAt : Option Int
  finishedAt : Option Int
  isFailed : Bool
deriving DecidableEq

/-- A persisted `events` row. -/
structure EventRow where
  jobId : String
  typ : String
  message : String
deriving DecidableEq

/-- A persisted `logs` row. -/
structure LogRow where
  jobId : String
  message : String
deriving DecidableEq

/-- `Emitter.registerEvents(job, type, message)`: `JOB_INIT` stamps
`initializedAt`; `JOB_ENDED`/`JOB_FAILED` stamp `finishedAt` and set
`isFailed = (type === "JOB_FAILED")`; every other type leaves the job
untouched.  The `Event` row is then saved inside `try { } catch {}`,
so a failed save (`saveOk = false`) appends nothing and the call still
returns normally. -/
def registerEventsF (now : Int) (job : EmJob) (typ message : String)
    (saveOk : Bool) (events : List EventRow) : EmJob × List EventRow :=
  let job1 :=
    if typ = "JOB_INIT" then
      { job with initializedAt := some now }
    else if typ = "JOB_ENDED" ∨ typ = "JOB_FAILED" then
      { job with finishedAt := some now, isFailed := typ == "JOB_FAILED" }
    else job
  (job1, if saveOk then events ++ [⟨job.id, typ, message⟩] else events)

/-- JavaScript `message.substring(0, 500)` on the character level. -/
def jsSubstringTo (n : Nat) (s : String) : String :=
  ⟨s.data.take n⟩

/-- `Emitter.registerLogs(job, message)`: store the message as is when
its length is at most 500, otherwise the first 500 characters followed
by the sentinel; the save is wrapped in `try { } catch {}`. -/
def registerLogsF (job : EmJob) (message : String) (saveOk : Bool)
    (logs : List LogRow) : List LogRow :=
  let stored :=
    if message.length > 500 then
      jsSubstringTo 500 message ++ "...[download for full log]"
    else message
  if saveOk then logs ++ [⟨job.id, stored⟩] else logs

/-! ## Slurm time arithmetic (`JobUtil.timeToSeconds`) -/

/-- JavaScript `String.prototype.split` with a one-character separator. -/
def splitOnChar (sep : Char) : List Char → List (List Char)
  | [] => [[]]
  | c :: rest =>
    if c = sep then [] :: splitOnChar sep rest
    else
      match splitOnChar sep rest with
      | [] => [[c]]
      | g :: gs => (c :: g) :: gs

/-- Decimal value of a digit list. -/
def digitsToNat (acc : Nat) : List Char → Nat
  | [] => acc
  | c :: rest => digitsToNat (acc * 10 + (c.toNat - 48)) rest

/-- JavaScript `parseInt` restricted to its behaviour on the strings at
hand: the longest leading run of decimal digits, `NaN` (`none`) when
there is none. -/
def jsParseInt (l : List Char) : Option Nat :=
  let digits := l.takeWhile Char.isDigit
  if digits.isEmpty then none else some (digitsToNat 0 digits)

/-- `JobUtil.timeToSeconds(raw)`: split on `":"`, then on `"-"`, and
dispatch on the component counts exactly as the source does.  `NaN`
results (from `parseInt` of a non-numeric component) and the trailing
`return Infinity` are both `none`.  Note the source's
`// minutes:seconds` branch reads `parseInt(i[0])` twice, and its
`// days-hours` branch reads `parseInt(j[0])` twice. -/
def timeToSeconds (raw : String) : Option Nat :=
  match splitOnChar ':' raw.data with
  | [a] =>
    match splitOnChar '-' a with
    | [_] => (jsParseInt a).map (· * 60)
    | d :: _ =>
      (jsParseInt d).map (fun n => n * 60 * 60 * 24 + n * 60 * 60)
    | [] => none
  | [a, b] =>
    match splitOnChar '-' a with
    | [d, h] =>
      match jsParseInt d, jsParseInt h, jsParseInt b with
      | some dn, some hn, some mn =>
        some (dn * 60 * 60 * 24 + hn * 60 * 60 + mn * 60)
      | _, _, _ => none
    | _ => (jsParseInt a).map (fun m => m * 60 + m)
  | [a, b, c] =>
    match splitOnChar '-' a with
    | [d, h] =>
      match jsParseInt d, jsParseInt h, jsParseInt b, jsParseInt c with
      | some dn, some hn, some mn, some sn =>
        some (dn * 60 * 60 * 24 + hn * 60 * 60 + mn * 60 + sn)
      | _, _, _, _ => none
    | _ =>
      match jsParseInt a, jsParseInt b, jsParseInt c with
      | some hn, some mn, some sn =>
        some (hn * 60 * 60 + mn * 60 + sn)
      | _, _, _ => none
  | _ => none

/-! ## Folder registration and the Globus uploader -/

/-- The completion flags of one `BaseFolderUploader`; the constructor
sets both to `false`. -/
structure UploaderFlags where
  isComplete : Bool
  isFailed : Bool
deriving DecidableEq

/-- A persisted `folders` row (the fields `register` fills in). -/
structure FolderRow where
  id : String
  hpc : String
  userId : String
deriving DecidableEq

/-- `BaseFolderUploader.register()`: save a `Folder` row iff
`this.isComplete && !this.isFailed` at call time. -/
def registerFolderF (u : UploaderFlags) (id hpc userId : String)
    (folders : List FolderRow) : List FolderRow :=
  if u.isComplete && !u.isFailed then folders ++ [⟨id, hpc, userId⟩]
  else folders

/-- JavaScript `String.prototype.startsWith` on character lists. -/
def listStartsWith : List Char → List Char → Bool
  | _, [] => true
  | [], _ :: _ => false
  | c :: cs, p :: ps => c = p && listStartsWith cs ps

/-- JavaScript `status.includes(pat)` on character lists. -/
def listIncludes (s pat : List Char) : Bool :=
  match s with
  | [] => listStartsWith [] pat
  | _ :: rest => listStartsWith s pat || listIncludes rest pat

/-- JavaScript `status.includes(pat)`. -/
def strIncludes (s pat : String) : Bool :=
  listIncludes s.data pat.data

/-- `GlobusFolderUploader.uploadToFolder`: after `initTransfer` and
`monitorTransfer` return a terminal `status`, a status containing
`"FAILED"` marks the upload complete and failed, and one containing
`"SUCCEEDED"` marks it complete. -/
def globusUploadToFolderF (status : String) (u : UploaderFlags) :
    UploaderFlags :=
  let u1 :=
    if strIncludes status "FAILED" then
      { u with isComplete := true, isFailed := true }
    else u
  if strIncludes status "SUCCEEDED" then { u1 with isComplete := true }
  else u1

/-- `GlobusFolderUploader.upload()` on a fresh uploader: run the
transfer against the target folder, then `register()`. -/
def globusUploadF (status : String) (id hpc userId : String)
    (folders : List FolderRow) : UploaderFlags × List FolderRow :=
  let u := globusUploadToFolderF status ⟨false, false⟩
  (u, registerFolderF u id hpc userId folders)

/-! ## Concrete instances used by the closed evaluation theorems -/

/-- A one-cluster production configuration: cluster `hpcA` with
`job_pool_capacity = 1` and `config.is_testing` unset. -/
def cfgA : Config where
  hpcNames := ["hpcA"]
  capacity := fun _ => 1
  isTesting := false
  hpcNamesNodup := by decide

/-- The same configuration with `config.is_testing` set. -/
def cfgATest : Config where
  hpcNames := ["hpcA"]
  capacity := fun _ => 1
  isTesting := true
  hpcNamesNodup := by decide

/-- A private-account job on cluster `hpcA`. -/
def jPriv : Job := ⟨"job1", "hpcA", false⟩

/-- A community-account job on cluster `hpcA`. -/
def jComm : Job := ⟨"job2", "hpcA", true⟩

/-- `pushJobToQueue(jPriv)` on a fresh supervisor. -/
def sQueued : SupState := pushJobF (initState cfgA) jPriv

/-- ... then one admission-loop iteration on `hpcA`. -/
def sRunning : SupState := admitF sQueued "hpcA"

/-- A parallel run admitting the community-account job instead. -/
def sRunningComm : SupState := admitF (pushJobF (initState cfgA) jComm) "hpcA"

/-- A cache path nobody has built yet: no remote zip, no `Cache` row. -/
def stEmptyCache : CacheSt := ⟨false, none, 0, 0, 0⟩

/-- A stale cache: the remote zip exists and the `Cache` row's
`updatedAt` (epoch `0`) is older than the Git source's last-commit
time used below. -/
def stStaleCache : CacheSt := ⟨true, some ⟨0, 0⟩, 0, 0, 0⟩

/-- A job entity as `registerEvents` first sees it. -/
def emJob : EmJob := ⟨"j1", none, none, false⟩

/-- A 501-character log message. -/
def longMsg : String := ⟨List.replicate 501 'a'⟩

/-- What the source stores for `longMsg`: its first 500 characters plus
the sentinel suffix. -/
def longMsgStored : String :=
  ⟨List.replicate 500 'a'⟩ ++ "...[download for full log]"

/-! ## Helper lemmas -/

theorem updf_same {α : Type} (f : String → α) (k : String) (v : α) :
    updf f k v k = v := by
  simp [updf]

theorem updf_other {α : Type} (f : String → α) {k x : String} (v : α)
    (h : x ≠ k) : updf f k v x = f x := by
  simp [updf, h]

theorem removeFirst_mem_of_mem {α : Type} [DecidableEq α] {x y : α}
    {l : List α} (h : y ∈ removeFirst x l) : y ∈ l := by
  induction l with
  | nil => simpa [removeFirst] using h
  | cons z zs ih =>
    by_cases hz : z = x
    · simp only [removeFirst, if_pos hz] at h
      exact List.mem_cons_of_mem _ h
    · simp only [removeFirst, if_neg hz] at h
      rcases List.mem_cons.mp h with h | h
      · exact h ▸ List.mem_cons_self _ _
      · exact List.mem_cons_of_mem _ (ih h)

theorem mem_removeFirst_or_eq {α : Type} [DecidableEq α] {x y : α}
    {l : List α} (h : y ∈ l) : y ∈ removeFirst x l ∨ y = x := by
  induction l with
  | nil => cases h
  | cons z zs ih =>
    by_cases hz : z = x
    · simp only [removeFirst, if_pos hz]
      rcases List.mem_cons.mp h with h | h
      · exact Or.inr (h.trans hz)
      · exact Or.inl h
    · simp only [removeFirst, if_neg hz]
      rcases List.mem_cons.mp h with h | h
      · exact Or.inl (h ▸ List.mem_cons_self _ _)
      · rcases ih h with h' | h'
        · exact Or.inl (List.mem_cons_of_mem _ h')
        · exact Or.inr h'

theorem removeFirst_length {α : Type} [DecidableEq α] {x : α} {l : List α}
    (h : x ∈ l) : (removeFirst x l).length + 1 = l.length := by
  induction l with
  | nil => cases h
  | cons z zs ih =>
    by_cases hz : z = x
    · simp [removeFirst, if_pos hz]
    · have hx : x ∈ zs := by
        rcases List.mem_cons.mp h with h' | h'
        · exact absurd h'.symm hz
        · exact h'
      have := ih hx
      simp only [removeFirst, if_neg hz, List.length_cons]
      omega

theorem idOccurs_append (i : String) (a b : List Job) :
    idOccurs i (a ++ b) = idOccurs i a + idOccurs i b := by
  simp [idOccurs, List.filter_append]

theorem idOccurs_pos_of_mem {i : String} {j : Job} {l : List Job}
    (hj : j ∈ l) (hid : j.id = i) : 1 ≤ idOccurs i l := by
  have hmem : j ∈ l.filter (fun j => decide (j.id = i)) :=
    List.mem_filter.mpr ⟨hj, by simp [hid]⟩
  have := List.length_pos.mpr (List.ne_nil_of_mem hmem)
  simpa [idOccurs] using this

theorem idOccurs_removeFirst_le (i : String) (x : Job) (l : List Job) :
    idOccurs i (removeFirst x l) ≤ idOccurs i l := by
  induction l with
  | nil => simp [removeFirst]
  | cons z zs ih =>
    by_cases hz : z = x
    · simp only [removeFirst, if_pos hz, idOccurs, List.filter_cons]
      split <;> simp [idOccurs] at * <;> omega
    · simp only [removeFirst, if_neg hz, idOccurs, List.filter_cons] at *
      split <;> simp [idOccurs] at * <;> omega

theorem idOccurs_removeFirst_self {x : Job} {l : List Job} (h : x ∈ l) :
    idOccurs x.id (removeFirst x l) + 1 = idOccurs x.id l := by
  induction l with
  | nil => cases h
  | cons z zs ih =>
    by_cases hz : z = x
    · subst hz
      simp [removeFirst, idOccurs, List.filter_cons]
    · have hx : x ∈ zs := by
        rcases List.mem_cons.mp h with h' | h'
        · exact absurd h'.symm hz
        · exact h'
      have := ih hx
      simp only [removeFirst, if_neg hz, idOccurs, List.filter_cons] at *
      split <;> simp [idOccurs] at * <;> omega

theorem idOccurs_eq_zero {i : String} {l : List Job}
    (h : ∀ x ∈ l, x.id ≠ i) : idOccurs i l = 0 := by
  simp only [idOccurs, List.length_eq_zero]
  exact List.filter_eq_nil.mpr (fun a ha => by simp [h a ha])

theorem ccount_append (a b : List Job) :
    ccount (a ++ b) = ccount a + ccount b := by
  simp [ccount, List.filter_append]

theorem ccount_removeFirst {x : Job} {l : List Job} (h : x ∈ l) :
    ccount (removeFirst x l) = ccount l - (if x.isCommunity then 1 else 0) := by
  have key :
      ((removeFirst x l).filter (fun j => j.isCommunity)).length +
        (if x.isCommunity then 1 else 0) =
        (l.filter (fun j => j.isCommunity)).length := by
    induction l with
    | nil => cases h
    | cons z zs ih =>
      by_cases hz : z = x
      · by_cases hcom : x.isCommunity <;>
          simp [removeFirst, if_pos hz, List.filter_cons, hz, hcom]
      · have hx : x ∈ zs := by
          rcases List.mem_cons.mp h with h' | h'
          · exact absurd h'.symm hz
          · exact h'
        have := ih hx
        by_cases hcom : z.isCommunity
        · simp only [removeFirst, if_neg hz, List.filter_cons, hcom,
            eq_self_iff_true, if_true, List.length_cons]
          omega
        · simp only [removeFirst, if_neg hz, List.filter_cons, hcom,
            Bool.false_eq_true, if_false]
          omega
  unfold ccount
  by_cases hcom : x.isCommunity <;> simp [hcom] at key ⊢ <;> omega

theorem sum_map_congr {l : List String} {f g : String → Nat}
    (h : ∀ c ∈ l, f c = g c) : (l.map f).sum = (l.map g).sum := by
  induction l with
  | nil => rfl
  | cons x xs ih =>
    simp only [List.map_cons, List.sum_cons]
    rw [h x (List.mem_cons_self _ _), ih (fun c hc => h c (List.mem_cons_of_mem _ hc))]

theorem single_le_sum_map {l : List String} {f : String → Nat} {c : String}
    (hc : c ∈ l) : f c ≤ (l.map f).sum :=
  List.single_le_sum (fun y _ => Nat.zero_le y) _ (List.mem_map_of_mem f hc)

theorem pair_le_sum_map {l : List String} {f : String → Nat} {c d : String}
    (hnd : l.Nodup) (hc : c ∈ l) (hd : d ∈ l) (hne : c ≠ d) :
    f c + f d ≤ (l.map f).sum := by
  induction l with
  | nil => cases hc
  | cons x xs ih =>
    have hnd' := List.nodup_cons.mp hnd
    simp only [List.map_cons, List.sum_cons]
    rcases List.mem_cons.mp hc with rfl | hc'
    · have hd' : d ∈ xs := by
        rcases List.mem_cons.mp hd with rfl | h
        · exact absurd rfl hne
        · exact h
      have := single_le_sum_map (f := f) hd'
      omega
    · rcases List.mem_cons.mp hd with rfl | hd'
      · have := single_le_sum_map (f := f) hc'
        omega
      · have := ih hnd'.2 hc' hd'
        omega

theorem sum_map_update {l : List String} {f g : String → Nat} {c : String}
    (hnd : l.Nodup) (hc : c ∈ l) (h : ∀ d ∈ l, d ≠ c → g d = f d) :
    (l.map g).sum + f c = (l.map f).sum + g c := by
  induction l with
  | nil => cases hc
  | cons x xs ih =>
    have hnd' := List.nodup_cons.mp hnd
    simp only [List.map_cons, List.sum_cons]
    rcases List.mem_cons.mp hc with rfl | hc'
    · have : (xs.map g).sum = (xs.map f).sum :=
        sum_map_congr (fun d hd =>
          h d (List.mem_cons_of_mem _ hd) (fun hdc => hnd'.1 (hdc ▸ hd)))
      omega
    · have hxc : x ≠ c := fun hxc => hnd'.1 (hxc ▸ hc')
      have hx := h x (List.mem_cons_self _ _) hxc
      have := ih hnd'.2 hc' (fun d hd hdc => h d (List.mem_cons_of_mem _ hd) hdc)
      omega

theorem sum_map_zero {l : List String} {f : String → Nat}
    (h : ∀ c ∈ l, f c = 0) : (l.map f).sum = 0 :=
  List.sum_eq_zero (fun x hx => by
    rcases List.mem_map.mp hx with ⟨c, hc, rfl⟩
    exact h c hc)

theorem sum_map_le {l : List String} {f g : String → Nat}
    (h : ∀ c ∈ l, f c ≤ g c) : (l.map f).sum ≤ (l.map g).sum :=
  List.sum_le_sum (fun c hc => h c hc)

/-! ## Preservation of the supervisor invariant -/

theorem inv_init (cfg : Config) : Inv cfg (initState cfg) where
  outside := fun _ _ => ⟨rfl, rfl⟩
  queueHpc := fun c j hj => absurd hj (List.not_mem_nil j)
  counterEq := fun _ => by simp [initState]
  counterLe := fun c _ => by simp [initState]
  idsNotHpc := fun c j hj => by simp [initState] at hj
  idUniq := fun i => by
    have h0 : totalOcc cfg (initState cfg) i = 0 :=
      sum_map_zero (fun c _ => by simp [initState, idOccurs])
    omega
  poolCluster := fun c hc => by simp [initState, hc, ccount]
  poolPrivate := fun c j hj _ => by simp [initState] at hj
  poolNone := fun k hk _ => by simp [initState, hk]

theorem inv_push {cfg : Config} {s : SupState} {j : Job} (hInv : Inv cfg s)
    (hhpc : j.hpc ∈ cfg.hpcNames) (hfresh : freshId cfg s j) :
    Inv cfg (pushJobF s j) := by
  obtain ⟨hidNot, hids⟩ := hfresh
  constructor
  · -- outside
    intro c hc
    have hne : c ≠ j.hpc := fun h => hc (h ▸ hhpc)
    exact ⟨by simp [pushJobF, updf_other _ _ hne, (hInv.outside c hc).1],
      (hInv.outside c hc).2⟩
  · -- queueHpc
    intro c j' hj'
    by_cases hc : c = j.hpc
    · subst hc
      simp only [pushJobF, updf_same] at hj'
      rcases List.mem_append.mp hj' with h | h
      · exact hInv.queueHpc _ _ h
      · simp only [List.mem_singleton] at h
        exact h ▸ rfl
    · simp only [pushJobF, updf_other _ _ hc] at hj'
      exact hInv.queueHpc _ _ hj'
  · -- counterEq
    intro c
    exact hInv.counterEq c
  · -- counterLe
    intro c hc
    exact hInv.counterLe c hc
  · -- idsNotHpc
    intro c j' hj'
    by_cases hc : c = j.hpc
    · subst hc
      simp only [pushJobF, updf_same] at hj'
      rcases List.mem_append.mp hj' with h | h
      · rcases List.mem_append.mp h with h' | h'
        · exact hInv.idsNotHpc _ _ (List.mem_append.mpr (Or.inl h'))
        · simp only [List.mem_singleton] at h'
          exact h' ▸ hidNot
      · exact hInv.idsNotHpc _ _ (List.mem_append.mpr (Or.inr h))
    · simp only [pushJobF, updf_other _ _ hc] at hj'
      exact hInv.idsNotHpc _ _ hj'
  · -- idUniq
    intro i
    by_cases hi : i = j.id
    · subst hi
      have hzero : ∀ c ∈ cfg.hpcNames,
          idOccurs j.id (s.queues c ++ s.running c) = 0 :=
        fun c hc => idOccurs_eq_zero (fun x hx => hids c hc x hx)
      have hupd := sum_map_update (l := cfg.hpcNames)
        (f := fun c => idOccurs j.id (s.queues c ++ s.running c))
        (g := fun c => idOccurs j.id
          ((pushJobF s j).queues c ++ (pushJobF s j).running c))
        cfg.hpcNamesNodup hhpc
        (fun d _ hd => by
          simp [pushJobF, updf_other _ _ hd])
      have hnewterm : idOccurs j.id
          ((pushJobF s j).queues j.hpc ++ (pushJobF s j).running j.hpc) = 1 := by
        simp only [pushJobF, updf_same]
        rw [List.append_assoc, idOccurs_append]
        have h1 : idOccurs j.id (s.queues j.hpc) = 0 :=
          idOccurs_eq_zero (fun x hx =>
            hids j.hpc hhpc x (List.mem_append.mpr (Or.inl hx)))
        have h2 : idOccurs j.id ([j] ++ s.running j.hpc) = 1 := by
          rw [idOccurs_append]
          have h3 : idOccurs j.id (s.running j.hpc) = 0 :=
            idOccurs_eq_zero (fun x hx =>
              hids j.hpc hhpc x (List.mem_append.mpr (Or.inr hx)))
          have h4 : idOccurs j.id [j] = 1 := by simp [idOccurs]
          omega
        omega
      have hold := sum_map_zero (l := cfg.hpcNames)
        (f := fun c => idOccurs j.id (s.queues c ++ s.running c)) hzero
      have holdterm := hzero j.hpc hhpc
      unfold totalOcc
      simp only [] at hupd hold ⊢
      omega
    · have hcong : totalOcc cfg (pushJobF s j) i = totalOcc cfg s i := by
        unfold totalOcc
        refine sum_map_congr (fun c _ => ?_)
        by_cases hc : c = j.hpc
        · subst hc
          simp only [pushJobF, updf_same]
          rw [List.append_assoc, idOccurs_append, idOccurs_append,
            idOccurs_append]
          have hji : ¬j.id = i := fun h => hi h.symm
          have : idOccurs i [j] = 0 := by simp [idOccurs, hji]
          omega
        · simp [pushJobF, updf_other _ _ hc]
      rw [hcong]
      exact hInv.idUniq i
  · -- poolCluster
    intro c hc
    exact hInv.poolCluster c hc
  · -- poolPrivate
    intro c j' hj' hpriv
    exact hInv.poolPrivate c j' hj' hpriv
  · -- poolNone
    intro k hk hnone
    exact hInv.poolNone k hk hnone

theorem inv_admitJob {cfg : Config} {s : SupState} {c : String} (hInv : Inv cfg s)
    (hc : c ∈ cfg.hpcNames) (hlt : s.counters c < (cfg.capacity c : Int))
    (hqn : s.queues c ≠ []) : Inv cfg (admitF s c) := by
  cases hq : s.queues c with
  | nil => exact absurd hq hqn
  | cons j rest =>
  have hjq : j ∈ s.queues c := hq ▸ List.mem_cons_self _ _
  have hjc : j.hpc = c := hInv.queueHpc c j hjq
  have hjid : j.id ∉ cfg.hpcNames :=
    hInv.idsNotHpc c j (List.mem_append.mpr (Or.inl hjq))
  have hs' : admitF s c =
      { counters := updf s.counters c (s.counters c + 1)
        queues := updf s.queues c rest
        running := updf s.running j.hpc (s.running j.hpc ++ [j])
        cancels := s.cancels
        pool :=
          if j.isCommunity then
            updf s.pool j.hpc ((s.pool j.hpc).map (· + 1))
          else
            updf s.pool j.id (some 1) } := by
    unfold admitF
    rw [hq]
  rw [hs', hjc]
  constructor
  · -- outside
    intro c' hc'
    have hne : c' ≠ c := fun h => hc' (h ▸ hc)
    exact ⟨by simp [updf_other _ _ hne, (hInv.outside c' hc').1],
      by simp [updf_other _ _ hne, (hInv.outside c' hc').2]⟩
  · -- queueHpc
    intro c' j' hj'
    by_cases hcc : c' = c
    · subst hcc
      simp only [updf_same] at hj'
      exact hInv.queueHpc c' j' (hq ▸ List.mem_cons_of_mem _ hj')
    · simp only [updf_other _ _ hcc] at hj'
      exact hInv.queueHpc c' j' hj'
  · -- counterEq
    intro c'
    by_cases hcc : c' = c
    · subst hcc
      simp only [updf_same, List.length_append, List.length_cons,
        List.length_nil]
      have := hInv.counterEq c'
      omega
    · simp only [updf_other _ _ hcc]
      exact hInv.counterEq c'
  · -- counterLe
    intro c' hcin
    by_cases hcc : c' = c
    · subst hcc
      simp only [updf_same]
      omega
    · simp only [updf_other _ _ hcc]
      exact hInv.counterLe c' hcin
  · -- idsNotHpc
    intro c' j' hj'
    by_cases hcc : c' = c
    · subst hcc
      simp only [updf_same] at hj'
      rcases List.mem_append.mp hj' with h | h
      · exact hInv.idsNotHpc c' j'
          (List.mem_append.mpr (Or.inl (hq ▸ List.mem_cons_of_mem _ h)))
      · rcases List.mem_append.mp h with h' | h'
        · exact hInv.idsNotHpc c' j' (List.mem_append.mpr (Or.inr h'))
        · simp only [List.mem_singleton] at h'
          exact h' ▸ hjid
    · simp only [updf_other _ _ hcc] at hj'
      exact hInv.idsNotHpc c' j' hj'
  · -- idUniq
    intro i
    have hcong :
        (cfg.hpcNames.map (fun d =>
          idOccurs i (updf s.queues c rest d ++
            updf s.running c (s.running c ++ [j]) d))).sum =
        (cfg.hpcNames.map (fun d =>
          idOccurs i (s.queues d ++ s.running d))).sum := by
      refine sum_map_congr (fun d _ => ?_)
      by_cases hcc : d = c
      · subst hcc
        simp only [updf_same, hq]
        have e1 := idOccurs_append i rest (s.running d ++ [j])
        have e2 := idOccurs_append i (s.running d) [j]
        have e3 := idOccurs_append i [j] (rest ++ s.running d)
        have e4 := idOccurs_append i rest (s.running d)
        have e5 : [j] ++ (rest ++ s.running d) = (j :: rest) ++ s.running d := by
          simp
        rw [e5] at e3
        omega
      · simp [updf_other _ _ hcc]
    have := hInv.idUniq i
    unfold totalOcc at this ⊢
    simp only [] at hcong ⊢
    omega
  · -- poolCluster
    intro c' hcin
    by_cases hcom : j.isCommunity
    · simp only [if_pos hcom]
      by_cases hcc : c' = c
      · subst hcc
        have e2 : ccount [j] = 1 := by simp [ccount, hcom]
        simp only [updf_same]
        rw [hInv.poolCluster c' hcin, ccount_append, e2]
        rfl
      · simp only [updf_other _ _ hcc]
        exact hInv.poolCluster c' hcin
    · simp only [if_neg hcom]
      have hne : c' ≠ j.id := fun h => hjid (h ▸ hcin)
      by_cases hcc : c' = c
      · subst hcc
        simp only [updf_same, updf_other _ _ hne]
        have e1 := ccount_append (s.running c') [j]
        have e2 : ccount [j] = 0 := by simp [ccount, hcom]
        rw [e1, e2, add_zero]
        exact hInv.poolCluster c' hcin
      · simp only [updf_other _ _ hcc, updf_other _ _ hne]
        exact hInv.poolCluster c' hcin
  · -- poolPrivate
    intro c' j' hj' hpriv
    have hold : j' ∈ s.running c' ∨ (j' = j ∧ c' = c) := by
      by_cases hcc : c' = c
      · subst hcc
        simp only [updf_same] at hj'
        rcases List.mem_append.mp hj' with h | h
        · exact Or.inl h
        · simp only [List.mem_singleton] at h
          exact Or.inr ⟨h, rfl⟩
      · simp only [updf_other _ _ hcc] at hj'
        exact Or.inl hj'
    rcases hold with hmem | ⟨rfl, rfl⟩
    · have hidNot : j'.id ∉ cfg.hpcNames :=
        hInv.idsNotHpc c' j' (List.mem_append.mpr (Or.inr hmem))
      by_cases hcom : j.isCommunity
      · simp only [if_pos hcom]
        have hne : j'.id ≠ c := fun h => hidNot (h ▸ hc)
        simp only [updf_other _ _ hne]
        exact hInv.poolPrivate c' j' hmem hpriv
      · simp only [if_neg hcom]
        by_cases hido : j'.id = j.id
        · rw [hido, updf_same]
        · simp only [updf_other _ _ hido]
          exact hInv.poolPrivate c' j' hmem hpriv
    · simp only [hpriv, Bool.false_eq_true, if_false, updf_same]
  · -- poolNone
    intro k hk hnone
    have holdnone : ∀ c'', ∀ j'' ∈ s.running c'', j''.isCommunity = false →
        j''.id ≠ k := by
      intro c'' j'' hj'' hpriv''
      refine hnone c'' j'' ?_ hpriv''
      by_cases hcc : c'' = c
      · subst hcc
        simp only [updf_same]
        exact List.mem_append.mpr (Or.inl hj'')
      · simp only [updf_other _ _ hcc]
        exact hj''
    by_cases hcom : j.isCommunity
    · simp only [if_pos hcom]
      have hne : k ≠ c := fun h => hk (h ▸ hc)
      simp only [updf_other _ _ hne]
      exact hInv.poolNone k hk holdnone
    · simp only [if_neg hcom]
      have hjmem : j ∈ updf s.running c (s.running c ++ [j]) c := by
        simp only [updf_same]
        exact List.mem_append.mpr (Or.inr (List.mem_singleton.mpr rfl))
      have hkid : j.id ≠ k :=
        hnone c j hjmem (Bool.not_eq_true _ ▸ hcom)
      have hne : k ≠ j.id := fun h => hkid h.symm
      simp only [updf_other _ _ hne]
      exact hInv.poolNone k hk holdnone

theorem inv_admitFail {cfg : Config} {s : SupState} {c : String}
    (hInv : Inv cfg s) (hqn : s.queues c ≠ []) : Inv cfg (admitFailF s c) := by
  cases hq : s.queues c with
  | nil => exact absurd hq hqn
  | cons j rest =>
  have hs' : admitFailF s c = { s with queues := updf s.queues c rest } := by
    unfold admitFailF
    rw [hq]
  rw [hs']
  constructor
  · -- outside
    intro c' hc'
    refine ⟨?_, (hInv.outside c' hc').2⟩
    by_cases hcc : c' = c
    · subst hcc
      rw [(hInv.outside c' hc').1] at hq
      cases hq
    · simp only [updf_other _ _ hcc]
      exact (hInv.outside c' hc').1
  · -- queueHpc
    intro c' j' hj'
    by_cases hcc : c' = c
    · subst hcc
      simp only [updf_same] at hj'
      exact hInv.queueHpc c' j' (hq ▸ List.mem_cons_of_mem _ hj')
    · simp only [updf_other _ _ hcc] at hj'
      exact hInv.queueHpc c' j' hj'
  · -- counterEq
    intro c'
    exact hInv.counterEq c'
  · -- counterLe
    intro c' hcin
    exact hInv.counterLe c' hcin
  · -- idsNotHpc
    intro c' j' hj'
    by_cases hcc : c' = c
    · subst hcc
      simp only [updf_same] at hj'
      rcases List.mem_append.mp hj' with h | h
      · exact hInv.idsNotHpc c' j'
          (List.mem_append.mpr (Or.inl (hq ▸ List.mem_cons_of_mem _ h)))
      · exact hInv.idsNotHpc c' j' (List.mem_append.mpr (Or.inr h))
    · simp only [updf_other _ _ hcc] at hj'
      exact hInv.idsNotHpc c' j' hj'
  · -- idUniq
    intro i
    have hle :
        (cfg.hpcNames.map (fun d =>
          idOccurs i (updf s.queues c rest d ++ s.running d))).sum ≤
        (cfg.hpcNames.map (fun d =>
          idOccurs i (s.queues d ++ s.running d))).sum := by
      refine sum_map_le (fun d _ => ?_)
      by_cases hcc : d = c
      · subst hcc
        simp only [updf_same, hq]
        have e1 := idOccurs_append i rest (s.running d)
        have e2 := idOccurs_append i [j] (rest ++ s.running d)
        have e3 := idOccurs_append i rest (s.running d)
        have e5 : [j] ++ (rest ++ s.running d) = (j :: rest) ++ s.running d := by
          simp
        rw [e5] at e2
        omega
      · simp [updf_other _ _ hcc]
    have := hInv.idUniq i
    unfold totalOcc at this ⊢
    simp only [] at hle ⊢
    omega
  · -- poolCluster
    intro c' hcin
    exact hInv.poolCluster c' hcin
  · -- poolPrivate
    intro c' j' hj' hpriv
    exact hInv.poolPrivate c' j' hj' hpriv
  · -- poolNone
    intro k hk hnone
    exact hInv.poolNone k hk hnone

theorem inv_jobEnd {cfg : Config} {s : SupState} {j : Job} (hInv : Inv cfg s)
    (hj : j ∈ s.running j.hpc) : Inv cfg (jobEndF s j) := by
  have hhpcIn : j.hpc ∈ cfg.hpcNames := by
    by_contra hout
    rw [(hInv.outside j.hpc hout).2] at hj
    cases hj
  have hjidNot : j.id ∉ cfg.hpcNames :=
    hInv.idsNotHpc j.hpc j (List.mem_append.mpr (Or.inr hj))
  constructor
  · -- outside
    intro c hc
    have hne : c ≠ j.hpc := fun h => hc (h ▸ hhpcIn)
    exact ⟨(hInv.outside c hc).1,
      by simp [jobEndF, updf_other _ _ hne, (hInv.outside c hc).2]⟩
  · -- queueHpc
    intro c j' hj'
    exact hInv.queueHpc c j' hj'
  · -- counterEq
    intro c
    by_cases hcc : c = j.hpc
    · subst hcc
      simp only [jobEndF, updf_same]
      have h1 := removeFirst_length hj
      have h2 := hInv.counterEq j.hpc
      omega
    · simp only [jobEndF, updf_other _ _ hcc]
      exact hInv.counterEq c
  · -- counterLe
    intro c hcin
    by_cases hcc : c = j.hpc
    · subst hcc
      simp only [jobEndF, updf_same]
      have := hInv.counterLe j.hpc hcin
      omega
    · simp only [jobEndF, updf_other _ _ hcc]
      exact hInv.counterLe c hcin
  · -- idsNotHpc
    intro c j' hj'
    rcases List.mem_append.mp hj' with h | h
    · exact hInv.idsNotHpc c j' (List.mem_append.mpr (Or.inl h))
    · by_cases hcc : c = j.hpc
      · subst hcc
        simp only [jobEndF, updf_same] at h
        exact hInv.idsNotHpc j.hpc j'
          (List.mem_append.mpr (Or.inr (removeFirst_mem_of_mem h)))
      · simp only [jobEndF, updf_other _ _ hcc] at h
        exact hInv.idsNotHpc c j' (List.mem_append.mpr (Or.inr h))
  · -- idUniq
    intro i
    have hle :
        (cfg.hpcNames.map (fun d =>
          idOccurs i ((jobEndF s j).queues d ++ (jobEndF s j).running d))).sum ≤
        (cfg.hpcNames.map (fun d =>
          idOccurs i (s.queues d ++ s.running d))).sum := by
      refine sum_map_le (fun d _ => ?_)
      by_cases hcc : d = j.hpc
      · subst hcc
        simp only [jobEndF, updf_same]
        have e1 := idOccurs_append i (s.queues j.hpc)
          (removeFirst j (s.running j.hpc))
        have e2 := idOccurs_append i (s.queues j.hpc) (s.running j.hpc)
        have e3 := idOccurs_removeFirst_le i j (s.running j.hpc)
        omega
      · simp [jobEndF, updf_other _ _ hcc]
    have := hInv.idUniq i
    unfold totalOcc at this ⊢
    simp only [] at hle ⊢
    omega
  · -- poolCluster
    intro c hcin
    by_cases hcom : j.isCommunity
    · simp only [jobEndF, if_pos hcom]
      by_cases hcc : c = j.hpc
      · subst hcc
        have e2 := ccount_removeFirst hj
        simp only [updf_same]
        rw [hInv.poolCluster j.hpc hcin, e2, if_pos hcom]
        rfl
      · have hne : c ≠ j.hpc := hcc
        simp only [updf_other _ _ hne]
        exact hInv.poolCluster c hcin
    · simp only [jobEndF, if_neg hcom]
      have hne : c ≠ j.id := fun h => hjidNot (h ▸ hcin)
      simp only [updf_other _ _ hne]
      by_cases hcc : c = j.hpc
      · subst hcc
        have e2 := ccount_removeFirst hj
        simp only [updf_same]
        rw [hInv.poolCluster j.hpc hcin, e2, if_neg hcom]
        simp
      · simp only [updf_other _ _ hcc]
        exact hInv.poolCluster c hcin
  · -- poolPrivate
    intro c j' hj' hpriv
    have hcIn : c ∈ cfg.hpcNames := by
      by_contra hout
      by_cases hcc : c = j.hpc
      · exact hout (hcc ▸ hhpcIn)
      · simp only [jobEndF, updf_other _ _ hcc] at hj'
        rw [(hInv.outside c hout).2] at hj'
        cases hj'
    have hmemOld : j' ∈ s.running c := by
      by_cases hcc : c = j.hpc
      · subst hcc
        simp only [jobEndF, updf_same] at hj'
        exact removeFirst_mem_of_mem hj'
      · simp only [jobEndF, updf_other _ _ hcc] at hj'
        exact hj'
    have hidNot' : j'.id ∉ cfg.hpcNames :=
      hInv.idsNotHpc c j' (List.mem_append.mpr (Or.inr hmemOld))
    by_cases hcom : j.isCommunity
    · simp only [jobEndF, if_pos hcom]
      have hne : j'.id ≠ j.hpc := fun h => hidNot' (h ▸ hhpcIn)
      simp only [updf_other _ _ hne]
      exact hInv.poolPrivate c j' hmemOld hpriv
    · simp only [jobEndF, if_neg hcom]
      by_cases hido : j'.id = j.id
      · -- impossible: two distinct running occurrences of the same id
        exfalso
        have htot := hInv.idUniq j.id
        by_cases hcc : c = j.hpc
        · subst hcc
          simp only [jobEndF, updf_same] at hj'
          have h1 := idOccurs_removeFirst_self hj
          have h2 : 1 ≤ idOccurs j.id (removeFirst j (s.running j.hpc)) :=
            idOccurs_pos_of_mem hj' hido
          have h3 := idOccurs_append j.id (s.queues j.hpc) (s.running j.hpc)
          have h4 := single_le_sum_map
            (f := fun d => idOccurs j.id (s.queues d ++ s.running d)) hcIn
          unfold totalOcc at htot
          simp only [] at h4
          omega
        · simp only [jobEndF, updf_other _ _ hcc] at hj'
          have h1 : 1 ≤ idOccurs j.id (s.queues j.hpc ++ s.running j.hpc) := by
            have := idOccurs_pos_of_mem hj (rfl : j.id = j.id)
            have e := idOccurs_append j.id (s.queues j.hpc) (s.running j.hpc)
            omega
          have h2 : 1 ≤ idOccurs j.id (s.queues c ++ s.running c) := by
            have := idOccurs_pos_of_mem hj' hido
            have e := idOccurs_append j.id (s.queues c) (s.running c)
            omega
          have h4 := pair_le_sum_map
            (f := fun d => idOccurs j.id (s.queues d ++ s.running d))
            cfg.hpcNamesNodup hhpcIn hcIn (fun h => hcc h.symm)
          unfold totalOcc at htot
          simp only [] at h4
          omega
      · simp only [updf_other _ _ hido]
        exact hInv.poolPrivate c j' hmemOld hpriv
  · -- poolNone
    intro k hk hnone
    have holdnone : ∀ c, ∀ j'' ∈ s.running c, j''.isCommunity = false →
        j'' ≠ j → j''.id ≠ k := by
      intro c j'' hj'' hpriv'' hne''
      refine hnone c j'' ?_ hpriv''
      by_cases hcc : c = j.hpc
      · subst hcc
        simp only [jobEndF, updf_same]
        rcases mem_removeFirst_or_eq (x := j) hj'' with h | h
        · exact h
        · exact absurd h hne''
      · simp only [jobEndF, updf_other _ _ hcc]
        exact hj''
    by_cases hcom : j.isCommunity
    · simp only [jobEndF, if_pos hcom]
      have hne : k ≠ j.hpc := fun h => hk (h ▸ hhpcIn)
      simp only [updf_other _ _ hne]
      refine hInv.poolNone k hk (fun c j'' hj'' hpriv'' => ?_)
      refine holdnone c j'' hj'' hpriv'' (fun heq => ?_)
      rw [heq] at hpriv''
      rw [hpriv''] at hcom
      cases hcom
    · simp only [jobEndF, if_neg hcom]
      by_cases hkid : k = j.id
      · rw [hkid, updf_same]
      · simp only [updf_other _ _ hkid]
        refine hInv.poolNone k hk (fun c j'' hj'' hpriv'' => ?_)
        by_cases hne'' : j'' = j
        · rw [hne'']
          exact fun h => hkid h.symm
        · exact holdnone c j'' hj'' hpriv'' hne''

theorem inv_workerCancel {cfg : Config} {s : SupState} {j : Job}
    (hInv : Inv cfg s) : Inv cfg (workerCancelF s j) :=
  ⟨fun c hc => ⟨(hInv.outside c hc).1, (hInv.outside c hc).2⟩,
    hInv.queueHpc, hInv.counterEq, hInv.counterLe, hInv.idsNotHpc,
    hInv.idUniq, hInv.poolCluster, hInv.poolPrivate, hInv.poolNone⟩

theorem inv_cancel {cfg : Config} {s : SupState} {jobId : String}
    (hInv : Inv cfg s) : Inv cfg (cancelJobF cfg s jobId).2 := by
  unfold cancelJobF
  cases cancelScan cfg s jobId with
  | none => exact hInv
  | some p =>
    cases p with
    | mk j h =>
      exact ⟨fun c hc => ⟨(hInv.outside c hc).1, (hInv.outside c hc).2⟩,
        hInv.queueHpc, hInv.counterEq, hInv.counterLe, hInv.idsNotHpc,
        hInv.idUniq, hInv.poolCluster, hInv.poolPrivate, hInv.poolNone⟩

/-- Every reachable supervisor state satisfies the invariant. -/
theorem inv_reachable {cfg : Config} {s : SupState} (h : Reachable cfg s) :
    Inv cfg s := by
  induction h with
  | init => exact inv_init cfg
  | push j _ hhpc hfresh ih => exact inv_push ih hhpc hfresh
  | admitJob c _ hc hlt hqn ih => exact inv_admitJob ih hc hlt hqn
  | admitFail c _ _ _ hqn ih => exact inv_admitFail ih hqn
  | jobEnd j _ hj ih => exact inv_jobEnd ih hj
  | workerCancel j _ _ ih => exact inv_workerCancel ih
  | cancel jobId _ ih => exact inv_cancel ih

/-- The two-step run `pushJobToQueue(jPriv)`; one admission tick — the
concrete scenario used by the witnesses. -/
theorem reach_sRunning : Reachable cfgA sRunning := by
  have h0 : Reachable cfgA (initState cfgA) := Reachable.init
  have h1 : Reachable cfgA sQueued :=
    Reachable.push jPriv h0 (by decide) (by decide)
  exact Reachable.admitJob "hpcA" h1 (by decide) (by decide) (by decide)

/-- The same run with the community-account job. -/
theorem reach_sRunningComm : Reachable cfgA sRunningComm := by
  have h0 : Reachable cfgA (initState cfgA) := Reachable.init
  have h1 : Reachable cfgA (pushJobF (initState cfgA) jComm) :=
    Reachable.push jComm h0 (by decide) (by decide)
  exact Reachable.admitJob "hpcA" h1 (by decide) (by decide) (by decide)

/-! ## The claims -/

/-- C1: for every cluster `c` and every interleaving of `pushJobToQueue`
calls, admission-loop iterations, worker terminations and `cancelJob`
calls, the number of running jobs on `c` never exceeds the cluster's
configured `job_pool_capacity`: the admission loop admits a popped job
only while `jobPoolCounters[c] < jobPoolCapacities[c]`, increments the
counter exactly once per admitted job, and decrements it exactly once on
that job's `job_end` signal. -/
theorem running_jobs_bounded_by_capacity {cfg : Config} {s : SupState}
    (h : Reachable cfg s) (c : String) (hc : c ∈ cfg.hpcNames) :
    (s.running c).length ≤ cfg.capacity c := by
  have hInv := inv_reachable h
  have h1 := hInv.counterEq c
  have h2 := hInv.counterLe c hc
  omega

/-- Witness for C1: after queueing and admitting one job on a
capacity-1 cluster, the running count is within capacity. -/
theorem running_jobs_bounded_by_capacity_witness :
    "hpcA" ∈ cfgA.hpcNames ∧
      (sRunning.running "hpcA").length ≤ cfgA.capacity "hpcA" :=
  ⟨by decide,
    running_jobs_bounded_by_capacity reach_sRunning "hpcA" (by decide)⟩

/-- C2 evaluated at its failing input (a code bug): with
`config.is_testing` unset, `cancelJob("job1")` returns `null` and
leaves the state untouched even though the job with id `"job1"` is in
the running set of `hpcA` — the running-set scan is wrapped in
`if (config.is_testing)`; with `is_testing` set the very same state
yields the job and appends it to the cancel set, as the claim (and the
method's own doc comment) describes. -/
theorem cancelJob_misses_running_job_when_not_testing :
    jPriv ∈ sRunning.running "hpcA" ∧ jPriv.id = "job1" ∧
    cancelJobF cfgA sRunning "job1" = (none, sRunning) ∧
    (cancelJobF cfgATest sRunning "job1").1 = some jPriv ∧
    (cancelJobF cfgATest sRunning "job1").2.cancels "hpcA" = [jPriv] :=
  ⟨by decide, rfl, rfl, by decide, by decide⟩

/-- C3 counterexample: a Git source with last-commit time `5` strictly
above the cache row's `updatedAt = 0`, whose remote cache zip exists.
The next `cachedUpload` performs zero uploads, keeps the stale zip and
row, and simply unzips the stale cache — it does not invalidate and
rebuild as the claim states. -/
theorem stale_cache_with_zip_not_rebuilt :
    getUpdateTime stStaleCache < 5 ∧
    cachedUploadGitF 5 10 stStaleCache =
      some { stStaleCache with unzips := 1 } ∧
    (cachedUploadGitF 5 10 stStaleCache).map CacheSt.uploads = some 0 :=
  ⟨by decide, by decide, by decide⟩

/-- C3 (amended): the staleness comparison runs only when the remote
cache zip is absent.  If the zip exists, `cachedUpload` reuses it with
no rebuild and no staleness check regardless of the upstream
last-commit time; if the zip is absent and the stored row is missing or
strictly older than the last-commit time, `cachedUpload` rebuilds
exactly once — exactly one upload into the cache path — before
unzipping into the fresh per-job workspace.  The `Cache` row is never
deleted. -/
theorem cachedUpload_staleness_only_on_missing_zip (L now : Int)
    (st : CacheSt) :
    (st.zipExists = true →
      cachedUploadGitF L now st = some { st with unzips := st.unzips + 1 }) ∧
    (st.zipExists = false → getUpdateTime st < L →
      ∃ st', cachedUploadGitF L now st = some st' ∧
        st'.uploads = st.uploads + 1 ∧ st'.zipExists = true ∧
        st'.unzips = st.unzips + 1) := by
  constructor
  · intro hz
    simp [cachedUploadGitF, pullFromCacheF, hz]
  · intro hz hstale
    cases hrow : st.row with
    | none =>
      refine Exists.intro
        { st with
          zipExists := true
          row := some (CacheRow.mk now now)
          uploads := st.uploads + 1
          unzips := st.unzips + 1
          folderRows := st.folderRows + 1 } ⟨?_, rfl, rfl, rfl⟩
      simp [cachedUploadGitF, refreshCacheF, clearCacheF, uploadToCacheGitF,
        uploadToPathCacheF, registerCacheF, registerF, pullFromCacheF,
        hz, hstale, hrow]
    | some r =>
      refine Exists.intro
        { st with
          zipExists := true
          uploads := st.uploads + 1
          unzips := st.unzips + 1
          folderRows := st.folderRows + 1 }
        ⟨?_, rfl, rfl, rfl⟩
      simp [cachedUploadGitF, refreshCacheF, clearCacheF, uploadToCacheGitF,
        uploadToPathCacheF, registerCacheF, registerF, pullFromCacheF,
        hz, hstale, hrow]

/-- Witness for the amended C3: the stale-but-present cache is reused
without any upload, and a missing cache with a stale row time is
rebuilt with exactly one upload. -/
theorem cachedUpload_staleness_only_on_missing_zip_witness :
    cachedUploadGitF 5 10 stStaleCache =
      some { stStaleCache with unzips := 1 } ∧
    ∃ st', cachedUploadGitF 5 10 stEmptyCache = some st' ∧
      st'.uploads = stEmptyCache.uploads + 1 ∧ st'.zipExists = true ∧
      st'.unzips = stEmptyCache.unzips + 1 :=
  ⟨(cachedUpload_staleness_only_on_missing_zip 5 10 stStaleCache).1 rfl,
    (cachedUpload_staleness_only_on_missing_zip 5 10 stEmptyCache).2
      rfl (by decide)⟩

/-- C4: after a completed `cachedStage(src)`, a second `cachedStage`
against the unmodified same source performs zero upload operations —
the remote cache zip exists, so the second call skips `refreshCache`
entirely and only unzips the cached zip into the new workspace. -/
theorem cached_stage_roundtrip_zero_uploads (L t₁ t₂ : Int)
    (st st₁ : CacheSt) (h : cachedUploadGitF L t₁ st = some st₁) :
    ∃ st₂, cachedUploadGitF L t₂ st₁ = some st₂ ∧
      st₂.uploads = st₁.uploads ∧ st₂.unzips = st₁.unzips + 1 := by
  have hz : st₁.zipExists = true := by
    unfold cachedUploadGitF pullFromCacheF at h
    by_cases hcond :
        (if !st.zipExists then refreshCacheF L t₁ st else st).zipExists = true
    · rw [if_pos hcond] at h
      injection h with h'
      rw [← h']
      exact hcond
    · rw [if_neg hcond] at h
      cases h
  refine ⟨{ st₁ with unzips := st₁.unzips + 1 }, ?_, rfl, rfl⟩
  simp [cachedUploadGitF, pullFromCacheF, hz]

/-- Witness for C4: a concrete first stage builds the cache; the second
stage on the resulting state uploads nothing and unzips once. -/
theorem cached_stage_roundtrip_zero_uploads_witness :
    ∃ st₂, cachedUploadGitF 5 20 (⟨true, some ⟨10, 10⟩, 1, 1, 1⟩ : CacheSt) =
      some st₂ ∧ st₂.uploads = 1 ∧ st₂.unzips = 2 := by
  have h : cachedUploadGitF 5 10 stEmptyCache =
      some (⟨true, some ⟨10, 10⟩, 1, 1, 1⟩ : CacheSt) := by decide
  exact cached_stage_roundtrip_zero_uploads 5 10 20 stEmptyCache _ h

/-- C5: in every reachable state, each configured cluster's shared pool
entry holds a refcount equal to the number of running community-account
jobs on that cluster (in particular whenever at least one such job
runs); each running private-account job `j` has `connectionPool[j.id]`
with refcount exactly `1`; and a non-cluster key whose id belongs to no
running private-account job has no pool entry — so a private entry is
deleted when its job ends.  The counts move exactly at admission and at
`job_end`, the steps of `Reachable`. -/
theorem connection_pool_refcounts {cfg : Config} {s : SupState}
    (h : Reachable cfg s) :
    (∀ c ∈ cfg.hpcNames, s.pool c = some (ccount (s.running c))) ∧
    (∀ c, ∀ j ∈ s.running c, j.isCommunity = false →
      s.pool j.id = some 1) ∧
    (∀ k, k ∉ cfg.hpcNames →
      (∀ c, ∀ j ∈ s.running c, j.isCommunity = false → j.id ≠ k) →
      s.pool k = none) := by
  have hInv := inv_reachable h
  exact ⟨hInv.poolCluster, hInv.poolPrivate, hInv.poolNone⟩

/-- Witness for C5: with the private job running, its pool entry has
refcount 1; with the community job running, the cluster entry has
refcount 1. -/
theorem connection_pool_refcounts_witness :
    sRunning.pool "job1" = some 1 ∧ sRunningComm.pool "hpcA" = some 1 := by
  constructor
  · exact (connection_pool_refcounts reach_sRunning).2.1 "hpcA" jPriv
      (by decide) rfl
  · have h := (connection_pool_refcounts reach_sRunningComm).1 "hpcA"
      (by decide)
    rw [h]
    decide

/-- C6: `registerEvents(job, type, message)` stamps `initializedAt` for
`JOB_INIT`, stamps `finishedAt` and sets
`isFailed = (type === "JOB_FAILED")` for `JOB_ENDED`/`JOB_FAILED`,
touches no job field for any other type, and appends the
`{jobId, type, message}` event row best-effort: a failed save appends
nothing and does not propagate. -/
theorem registerEvents_effects (now : Int) (job : EmJob)
    (typ message : String) (saveOk : Bool) (events : List EventRow) :
    ((registerEventsF now job typ message saveOk events).2 =
      if saveOk then events ++ [⟨job.id, typ, message⟩] else events) ∧
    (typ = "JOB_INIT" →
      (registerEventsF now job typ message saveOk events).1 =
        { job with initializedAt := some now }) ∧
    (typ = "JOB_ENDED" ∨ typ = "JOB_FAILED" →
      (registerEventsF now job typ message saveOk events).1 =
        { job with
          finishedAt := some now
          isFailed := typ == "JOB_FAILED" }) ∧
    (typ ≠ "JOB_INIT" → typ ≠ "JOB_ENDED" → typ ≠ "JOB_FAILED" →
      (registerEventsF now job typ message saveOk events).1 = job) := by
  refine ⟨rfl, ?_, ?_, ?_⟩
  · intro h
    simp [registerEventsF, h]
  · rintro (h | h) <;> subst h <;> simp [registerEventsF]
  · intro h1 h2 h3
    simp [registerEventsF, h1, h2, h3]

/-- Witness for C6: a failed job gets `finishedAt` and `isFailed`; a
failed event save appends no row. -/
theorem registerEvents_effects_witness :
    (registerEventsF 7 emJob "JOB_FAILED" "m" true []).1 =
      { emJob with finishedAt := some 7, isFailed := true } ∧
    (registerEventsF 7 emJob "JOB_INIT" "m" false []).2 = [] :=
  ⟨(registerEvents_effects 7 emJob "JOB_FAILED" "m" true []).2.2.1
      (Or.inr rfl),
    (registerEvents_effects 7 emJob "JOB_INIT" "m" false []).1⟩

/-- C7: `registerLogs` stores a message of at most 500 characters
unchanged, and otherwise stores exactly the first 500 characters
followed by the sentinel suffix `"...[download for full log]"`. -/
theorem registerLogs_truncation (job : EmJob) (message : String)
    (logs : List LogRow) :
    (message.length ≤ 500 →
      registerLogsF job message true logs = logs ++ [⟨job.id, message⟩]) ∧
    (message.length > 500 →
      registerLogsF job message true logs = logs ++
        [⟨job.id, jsSubstringTo 500 message ++
          "...[download for full log]"⟩]) := by
  constructor
  · intro h
    have hn : ¬message.length > 500 := by omega
    simp [registerLogsF, hn]
  · intro h
    simp [registerLogsF, h]

set_option maxRecDepth 10000 in
/-- Witness for C7: a short message is stored as is; a 501-character
message is stored as its 500-character cut plus the sentinel. -/
theorem registerLogs_truncation_witness :
    registerLogsF emJob "abc" true [] = [⟨"j1", "abc"⟩] ∧
    registerLogsF emJob longMsg true [] = [⟨"j1", longMsgStored⟩] := by
  constructor
  · exact (registerLogs_truncation emJob "abc" []).1 (by decide)
  · have h := (registerLogs_truncation emJob longMsg []).2 (by decide)
    rw [h]
    decide

/-- C8 evaluated on the four recognized formats (a code bug in one):
`D-HH:MM:SS`, `HH:MM:SS` and `MM` convert to seconds as the standard
reading prescribes, but the `MM:SS` branch of `timeToSeconds` returns
`parseInt(i[0]) * 60 + parseInt(i[0])` — the minutes field twice — so
`"10:30"` yields `610` instead of the standard `10 * 60 + 30 = 630`
used by `compareSlurmConfig` ceilings. -/
theorem timeToSeconds_formats :
    timeToSeconds "1-02:03:04" = some (1 * 86400 + 2 * 3600 + 3 * 60 + 4) ∧
    timeToSeconds "02:03:04" = some (2 * 3600 + 3 * 60 + 4) ∧
    timeToSeconds "45" = some (45 * 60) ∧
    timeToSeconds "10:30" = some 610 ∧ (610 : Nat) ≠ 10 * 60 + 30 := by
  refine ⟨by decide, by decide, by decide, by decide, by decide⟩

/-- C9: when `registerCache` finds an existing `Cache` row for the
`(hpc, cachePath)` pair, no persistent write occurs — the stored row,
its `updatedAt` included, is unchanged, over any sequence of further
calls; the in-memory `Cache.update()` touches `createdAt` only; and a
row's persisted `updatedAt` is set exactly at first insertion. -/
theorem registerCache_existing_row_no_write (complete failed : Bool)
    (now : Int) (r : CacheRow) (st : CacheSt) (h : st.row = some r) :
    (registerCacheF complete failed now st).row = some r ∧
    (∀ calls, (registerCacheSeq calls st).row = some r) ∧
    (cacheEntityUpdate now r).updatedAt = r.updatedAt ∧
    (cacheEntityUpdate now r).createdAt = now ∧
    (∀ st' : CacheSt, st'.row = none →
      (registerCacheF true false now st').row = some ⟨now, now⟩) := by
  have single : ∀ (c f : Bool) (t : Int) (st' : CacheSt) (r' : CacheRow),
      st'.row = some r' → (registerCacheF c f t st').row = some r' := by
    intro c f t st' r' h'
    cases hc : c && !f <;> simp [registerCacheF, hc, h']
  refine ⟨single complete failed now st r h, ?_, rfl, rfl, ?_⟩
  · intro calls
    have seq : ∀ (calls : List (Bool × Bool × Int)) (st' : CacheSt),
        st'.row = some r → (registerCacheSeq calls st').row = some r := by
      intro calls
      induction calls with
      | nil => intro st' h'; exact h'
      | cons hd tl ih =>
        intro st' h'
        exact ih _ (single hd.1 hd.2.1 hd.2.2 st' r h')
    exact seq calls st h
  · intro st' h'
    simp [registerCacheF, h']

/-- Witness for C9: `registerCache` against the existing epoch-0 row
leaves it intact, while `Cache.update()` at time 99 moves `createdAt`
but not `updatedAt`. -/
theorem registerCache_existing_row_no_write_witness :
    (registerCacheF true false 99 stStaleCache).row = some ⟨0, 0⟩ ∧
    (cacheEntityUpdate 99 ⟨0, 0⟩).updatedAt = 0 ∧
    (cacheEntityUpdate 99 ⟨0, 0⟩).createdAt = 99 :=
  ⟨(registerCache_existing_row_no_write true false 99 ⟨0, 0⟩ stStaleCache
      rfl).1,
    (registerCache_existing_row_no_write true false 99 ⟨0, 0⟩ stStaleCache
      rfl).2.2.1,
    (registerCache_existing_row_no_write true false 99 ⟨0, 0⟩ stStaleCache
      rfl).2.2.2.1⟩

/-- C10: `register()` persists a `Folder` row iff `isComplete` is true
and `isFailed` is false at call time; a Globus transfer whose terminal
status contains `FAILED` marks the uploader complete-and-failed, so its
`upload()` writes no `Folder` row — every persisted row corresponds to
a successfully completed staging. -/
theorem folder_registered_iff_complete (u : UploaderFlags)
    (id hpc userId : String) (folders : List FolderRow) (status : String) :
    (u.isComplete = true ∧ u.isFailed = false →
      registerFolderF u id hpc userId folders =
        folders ++ [⟨id, hpc, userId⟩]) ∧
    (¬(u.isComplete = true ∧ u.isFailed = false) →
      registerFolderF u id hpc userId folders = folders) ∧
    (strIncludes status "FAILED" = true →
      (globusUploadF status id hpc userId folders).2 = folders) := by
  refine ⟨?_, ?_, ?_⟩
  · rintro ⟨h1, h2⟩
    simp [registerFolderF, h1, h2]
  · intro h
    have hb : (u.isComplete && !u.isFailed) = false := by
      cases hc : u.isComplete <;> cases hf : u.isFailed <;> simp_all
    simp [registerFolderF, hb]
  · intro h
    by_cases hs : strIncludes status "SUCCEEDED" <;>
      simp [globusUploadF, globusUploadToFolderF, h, hs, registerFolderF]

/-- Witness for C10: a `FAILED` Globus transfer leaves the folder table
unchanged; a complete non-failed uploader appends exactly its row. -/
theorem folder_registered_iff_complete_witness :
    (globusUploadF "FAILED" "f1" "hpcA" "u1" []).2 = ([] : List FolderRow) ∧
    registerFolderF ⟨true, false⟩ "f2" "hpcA" "u1" [] =
      [⟨"f2", "hpcA", "u1"⟩] :=
  ⟨(folder_registered_iff_complete ⟨true, false⟩ "f1" "hpcA" "u1" []
      "FAILED").2.2 (by decide),
    (folder_registered_iff_complete ⟨true, false⟩ "f2" "hpcA" "u1" []
      "x").1 ⟨rfl, rfl⟩⟩

end CyberGIS
